import Mathlib

/-!
Verification of the incremental-computation core of buck2 (dice):
a shallow embedding of `dice/src/legacy/incremental/graph/dependencies.rs`
(versioned forward/reverse dependency stores, the type-erased dependency
edge equality) and `dice/src/impls/cache.rs` (the shared task cache).
-/

namespace Buck2

/-- VersionNumber is a newtype over usize, totally ordered; claims only use
its order, so it is embedded as Nat. -/
abbrev VersionNumber := Nat

/-- The identity token of an underlying computation key: in the source,
PartialEqAny compares the underlying key values by type and value; interned
identity is embedded as a Nat token (equal tokens = same logical key). -/
abbrev KeyToken := Nat

/-- A stored forward edge (the trait object dyn Dependency): its observable
state for equality purposes is the target key identity; `version` and
`storage` stand for the rest of the edge's content (the recorded version and
whatever else a concrete impl carries), which per the source never enters
the eq/hash path. -/
structure Dependency where
  key : KeyToken
  version : VersionNumber
  storage : Nat
deriving DecidableEq, Repr

/-- Dependency::get_key_equality returns the equality token of the underlying
key only. -/
def Dependency.getKeyEquality (d : Dependency) : KeyToken := d.key

/-- impl PartialEq for dyn Dependency: `self.get_key_equality() == other.get_key_equality()`. -/
def dependencyEq (a b : Dependency) : Bool :=
  a.getKeyEquality == b.getKeyEquality

/-- Modelled from the spec: the concrete Dependency impl's `hash` (delegated to
by `impl Hash for dyn Dependency` in the source, the concrete impl is not under
src/) hashes the underlying key identity only. -/
def dependencyHash (d : Dependency) : Nat := d.key

/-- A freshly computed edge (the trait object dyn ComputedDependency): its
ComputedDependency::get_key_equality returns the pair
`(PartialEqAny, VersionNumber)`, so the observed version is part of its
identity. `storage` stands for the rest of its content. -/
structure ComputedDependency where
  key : KeyToken
  version : VersionNumber
  storage : Nat
deriving DecidableEq, Repr

/-- ComputedDependency::get_key_equality returns the key token together with
the recorded VersionNumber. -/
def ComputedDependency.getKeyEquality (d : ComputedDependency) :
    KeyToken × VersionNumber := (d.key, d.version)

/-- impl PartialEq for dyn ComputedDependency: equality of the
(key identity, version) pairs. -/
def computedDependencyEq (a b : ComputedDependency) : Bool :=
  a.getKeyEquality == b.getKeyEquality

/-- The dependency list stored in a VersionedDependencies snapshot
(`Arc<Vec<Box<dyn Dependency>>>`). -/
abbrev DepsList := List Dependency

/-- VersionedDependencies: `deps: RwLock<Option<(VersionNumber, Arc<Vec<...>>)>>`.
The lock-protected contents are the state. -/
abbrev VersionedDependencies := Option (VersionNumber × DepsList)

/-- VersionedDependencies::new: starts with no snapshot. -/
def VersionedDependencies.new : VersionedDependencies := none

/-- VersionedDependencies::deps: returns the dependency list of the current
snapshot, or none when never written. -/
def VersionedDependencies.deps (s : VersionedDependencies) : Option DepsList :=
  s.map (fun d => d.2)

/-- VersionedDependencies::add_deps: writes `(v, deps)` iff
`this_deps.as_ref().map_or(true, |d| v > d.0)`, i.e. no snapshot exists or
the new version is strictly greater; otherwise leaves the state unchanged. -/
def VersionedDependencies.add_deps (s : VersionedDependencies)
    (v : VersionNumber) (d : DepsList) : VersionedDependencies :=
  match s with
  | none => some (v, d)
  | some p => if p.1 < v then some (v, d) else s

/-- A sequence of add_deps calls applied in arrival order to a fresh store. -/
def runWrites (ws : List (VersionNumber × DepsList)) : VersionedDependencies :=
  ws.foldl (fun s u => VersionedDependencies.add_deps s u.1 u.2) VersionedDependencies.new

/-- The heap of graph nodes: address of the allocation to the node's content
(Nat stands for the type-erased value), none once the allocation is dropped. -/
abbrev Heap := Nat → Option Nat

/-- Weak<dyn GraphNodeDyn>: a non-owning pointer to a node allocation. -/
structure WeakRef where
  ptr : Nat
deriving DecidableEq, Repr

/-- Weak::upgrade: yields the strong reference (address, content) while the
allocation is live, and none once it is dead. -/
def WeakRef.upgrade (w : WeakRef) (h : Heap) : Option (Nat × Nat) :=
  (h w.ptr).map (fun c => (w.ptr, c))

/-- Rdep is `#[repr(transparent)]` over the weak reference; its derived
structural equality below coincides with `Weak::ptr_eq`. -/
structure Rdep where
  weak : WeakRef
deriving DecidableEq, Repr

/-- impl PartialEq for Rdep: `Weak::ptr_eq(&self.0, &other.0)` — raw pointer
comparison, never consulting the pointee. -/
def Rdep.ptrEq (a b : Rdep) : Bool := a.weak.ptr == b.weak.ptr

/-- impl Hash for Rdep: `self.0.upgrade().map(|p| Arc::as_ptr(&p)).hash(state)`
— the token fed to the hasher is the optional address of a successful
upgrade. -/
def Rdep.hashToken (r : Rdep) (h : Heap) : Option Nat :=
  (r.weak.upgrade h).map (fun p => p.1)

/-- VersionedRevDependenciesData: `rdeps: HashMap<Rdep, VersionNumber>`,
embedded as an association list keyed by Rdep (the HashMap holds at most one
entry per key; operations below touch the first matching entry). -/
structure VersionedRevDependenciesData where
  rdeps : List (Rdep × VersionNumber)
deriving DecidableEq, Repr

/-- Lookup of the recorded version for a dependent in the rdeps map. -/
def lookupRdep : List (Rdep × VersionNumber) → Rdep → Option VersionNumber
  | [], _ => none
  | (d', v') :: rest, d => if d' = d then some v' else lookupRdep rest d

/-- The entry update of VersionedRevDependencies::add_rdep: an occupied entry
is replaced only when its recorded version is strictly smaller
(`if *entry.get() < current_version { entry.replace_entry(current_version) }`),
a vacant entry is inserted with the given version. -/
def addRdepEntry : List (Rdep × VersionNumber) → Rdep → VersionNumber →
    List (Rdep × VersionNumber)
  | [], d, v => [(d, v)]
  | (d', v') :: rest, d, v =>
    if d' = d then
      (if v' < v then (d', v) :: rest else (d', v') :: rest)
    else
      (d', v') :: addRdepEntry rest d v

/-- VersionedRevDependencies::new: empty dependent map. -/
def VersionedRevDependencies.new : VersionedRevDependenciesData := ⟨[]⟩

/-- VersionedRevDependencies::add_rdep on the lock-protected data. -/
def VersionedRevDependencies.add_rdep (s : VersionedRevDependenciesData)
    (d : Rdep) (v : VersionNumber) : VersionedRevDependenciesData :=
  ⟨addRdepEntry s.rdeps d v⟩

/-- VersionedRevDependencies::rdeps: acquires a read lock and hands out a view
of the data; embedded as returning the view together with the (unchanged)
state. -/
def VersionedRevDependencies.rdepsRead (s : VersionedRevDependenciesData) :
    VersionedRevDependenciesData × VersionedRevDependenciesData := (s, s)

/-- n successive rdeps() reads, threading the state. -/
def readMany : Nat → VersionedRevDependenciesData → VersionedRevDependenciesData
  | 0, s => s
  | n + 1, s => readMany n (VersionedRevDependencies.rdepsRead s).2

/-- Modelled from the spec: the invalidation fan-out caller (not under src/)
walks the rdeps view and notifies only dependents whose weak reference still
upgrades; a dead entry contributes nothing rather than faulting. -/
def liveDependents (h : Heap) (s : VersionedRevDependenciesData) :
    List (Nat × Nat) :=
  s.rdeps.filterMap (fun e => e.1.weak.upgrade h)

/-- A DiceTask handle in the shared cache; all joiners of one task observe
that task's single result, so the task id stands for the observed result. -/
abbrev DiceTask := Nat

/-- Modelled from the spec: the state of the SharedCache slot for one key K.
SharedCache::get(K) is `storage.entry(key)`, the dashmap entry primitive that
atomically distinguishes a vacant from an occupied slot; the evaluate caller
(not under src/) populates a vacant slot with a fresh task, starting the
recompute function, and joins the task of an occupied slot. `started` counts
how many times the recompute function for K was started. -/
structure TaskCacheState where
  slot : Option DiceTask
  started : Nat
deriving DecidableEq, Repr

/-- Modelled from the spec: one requester's atomic slot acquisition for key K:
a vacant slot is populated with the requester's fresh task (starting the
recompute function once), an occupied slot is joined. Returns the new state
and the task whose result this requester observes. -/
def requesterStep (newTask : DiceTask) (s : TaskCacheState) :
    TaskCacheState × DiceTask :=
  match s.slot with
  | none => (⟨some newTask, s.started + 1⟩, newTask)
  | some t => (s, t)

/-- Modelled from the spec: N requesters hitting the slot for K in some
arrival order (each acquisition is atomic, so any concurrent interleaving is
some sequential order); each entry of the list is the fresh task that
requester would create on a vacant slot. Returns the final state and the task
each requester observes. -/
def runRequesters : List DiceTask → TaskCacheState →
    TaskCacheState × List DiceTask
  | [], s => (s, [])
  | t :: rest, s =>
    let p := requesterStep t s
    let q := runRequesters rest p.1
    (q.1, p.2 :: q.2)

theorem lookupRdep_addRdepEntry (l : List (Rdep × VersionNumber)) (d : Rdep)
    (v : VersionNumber) :
    lookupRdep (addRdepEntry l d v) d =
      some (match lookupRdep l d with | none => v | some v0 => max v0 v) := by
  induction l with
  | nil => simp [addRdepEntry, lookupRdep]
  | cons e rest ih =>
    obtain ⟨d', v'⟩ := e
    by_cases hd : d' = d
    · subst hd
      by_cases hv : v' < v
      · simp [addRdepEntry, lookupRdep, hv, Nat.max_eq_right (Nat.le_of_lt hv)]
      · simp [addRdepEntry, lookupRdep, hv, Nat.max_eq_left (Nat.le_of_not_lt hv)]
    · simp [addRdepEntry, lookupRdep, hd, ih]

theorem addRdepEntry_head (d : Rdep) (v' v : VersionNumber)
    (rest : List (Rdep × VersionNumber)) :
    addRdepEntry ((d, v') :: rest) d v = (d, max v' v) :: rest := by
  by_cases hv : v' < v
  · simp [addRdepEntry, hv, Nat.max_eq_right (Nat.le_of_lt hv)]
  · simp [addRdepEntry, hv, Nat.max_eq_left (Nat.le_of_not_lt hv)]

theorem addRdepEntry_absent (l : List (Rdep × VersionNumber)) (d : Rdep)
    (v : VersionNumber) (h : lookupRdep l d = none) :
    addRdepEntry l d v = l ++ [(d, v)] := by
  induction l with
  | nil => simp [addRdepEntry]
  | cons e rest ih =>
    obtain ⟨d', v'⟩ := e
    by_cases hd : d' = d
    · simp [lookupRdep, hd] at h
    · simp only [lookupRdep, if_neg hd] at h
      simp [addRdepEntry, hd, ih h]

theorem addRdepEntry_stale (l : List (Rdep × VersionNumber)) (d : Rdep)
    (v v' : VersionNumber) (h : lookupRdep l d = some v') (hv : ¬ v' < v) :
    addRdepEntry l d v = l := by
  induction l with
  | nil => simp [lookupRdep] at h
  | cons e rest ih =>
    obtain ⟨d', w⟩ := e
    by_cases hd : d' = d
    · subst hd
      simp [lookupRdep] at h
      subst h
      simp [addRdepEntry, hv]
    · simp only [lookupRdep, if_neg hd] at h
      simp [addRdepEntry, hd, ih h]

theorem addRdepEntry_comm (l : List (Rdep × VersionNumber)) (d : Rdep)
    (v1 v2 : VersionNumber) :
    addRdepEntry (addRdepEntry l d v1) d v2 =
      addRdepEntry (addRdepEntry l d v2) d v1 := by
  induction l with
  | nil =>
    rw [show addRdepEntry [] d v1 = [(d, v1)] from rfl,
      show addRdepEntry [] d v2 = [(d, v2)] from rfl,
      addRdepEntry_head, addRdepEntry_head, Nat.max_comm]
  | cons e rest ih =>
    obtain ⟨d', v'⟩ := e
    by_cases hd : d' = d
    · subst hd
      rw [addRdepEntry_head, addRdepEntry_head, addRdepEntry_head,
        addRdepEntry_head, Nat.max_assoc, Nat.max_assoc, Nat.max_comm v1 v2]
    · simp [addRdepEntry, hd, ih]

theorem addRdepEntry_idem (l : List (Rdep × VersionNumber)) (d : Rdep)
    (v : VersionNumber) :
    addRdepEntry (addRdepEntry l d v) d v = addRdepEntry l d v := by
  induction l with
  | nil => simp [addRdepEntry]
  | cons e rest ih =>
    obtain ⟨d', v'⟩ := e
    by_cases hd : d' = d
    · subst hd
      rw [addRdepEntry_head, addRdepEntry_head, Nat.max_assoc, Nat.max_self]
    · simp [addRdepEntry, hd, ih]

/-- C2: add_deps(v, d) replaces the stored snapshot if no snapshot exists or
if v is strictly greater than the stored version, otherwise is a no-op
leaving the stored pair unchanged; in particular a second add_deps at the
same version never changes the snapshot. -/
theorem add_deps_write_once (s : VersionedDependencies) (v : VersionNumber)
    (d : DepsList) :
    ((s = none ∨ ∃ p, s = some p ∧ p.1 < v) →
      VersionedDependencies.add_deps s v d = some (v, d)) ∧
    (∀ p, s = some p → ¬ p.1 < v → VersionedDependencies.add_deps s v d = s) ∧
    (∀ d', VersionedDependencies.add_deps (VersionedDependencies.add_deps s v d) v d' =
      VersionedDependencies.add_deps s v d) := by
  refine ⟨?_, ?_, ?_⟩
  · rintro (rfl | ⟨p, rfl, hp⟩)
    · rfl
    · simp [VersionedDependencies.add_deps, hp]
  · rintro p rfl hp
    simp [VersionedDependencies.add_deps, hp]
  · intro d'
    cases s with
    | none => simp [VersionedDependencies.add_deps]
    | some p =>
      by_cases hp : p.1 < v
      · simp [VersionedDependencies.add_deps, hp]
      · simp [VersionedDependencies.add_deps, hp]

theorem add_deps_write_once_witness :
    VersionedDependencies.add_deps none 1 [] = some (1, []) :=
  (add_deps_write_once none 1 []).1 (Or.inl rfl)

/-- C3: add_rdep(D, v) inserts the entry (D, v) when D is absent; when D is
present it replaces the recorded version with v only if v is strictly
greater, and otherwise leaves the store unchanged. -/
theorem add_rdep_insert_or_bump (s : VersionedRevDependenciesData) (d : Rdep)
    (v : VersionNumber) :
    (lookupRdep s.rdeps d = none →
      (VersionedRevDependencies.add_rdep s d v).rdeps = s.rdeps ++ [(d, v)]) ∧
    (∀ v', lookupRdep s.rdeps d = some v' → v' < v →
      lookupRdep (VersionedRevDependencies.add_rdep s d v).rdeps d = some v) ∧
    (∀ v', lookupRdep s.rdeps d = some v' → ¬ v' < v →
      VersionedRevDependencies.add_rdep s d v = s) := by
  refine ⟨?_, ?_, ?_⟩
  · intro h
    simp [VersionedRevDependencies.add_rdep, addRdepEntry_absent s.rdeps d v h]
  · intro v' h hv
    simp [VersionedRevDependencies.add_rdep, lookupRdep_addRdepEntry, h,
      Nat.max_eq_right (Nat.le_of_lt hv)]
  · intro v' h hv
    cases s with
    | mk l => simp [VersionedRevDependencies.add_rdep, addRdepEntry_stale l d v v' h hv]

theorem add_rdep_insert_or_bump_witness :
    (VersionedRevDependencies.add_rdep ⟨[]⟩ ⟨⟨0⟩⟩ 3).rdeps = [(⟨⟨0⟩⟩, 3)] :=
  (add_rdep_insert_or_bump ⟨[]⟩ ⟨⟨0⟩⟩ 3).1 rfl

/-- C5: add_rdep(D, v1) then add_rdep(D, v2) leaves the recorded version for a
previously absent D at max(v1, v2); the two call orders produce the same
final store (commutative), and a repeated call with the same version leaves
the store as a single call does (idempotent). -/
theorem add_rdep_comm_idem (s : VersionedRevDependenciesData) (d : Rdep)
    (v1 v2 v : VersionNumber) :
    (lookupRdep s.rdeps d = none →
      lookupRdep (VersionedRevDependencies.add_rdep
        (VersionedRevDependencies.add_rdep s d v1) d v2).rdeps d = some (max v1 v2)) ∧
    VersionedRevDependencies.add_rdep (VersionedRevDependencies.add_rdep s d v1) d v2 =
      VersionedRevDependencies.add_rdep (VersionedRevDependencies.add_rdep s d v2) d v1 ∧
    VersionedRevDependencies.add_rdep (VersionedRevDependencies.add_rdep s d v) d v =
      VersionedRevDependencies.add_rdep s d v := by
  refine ⟨?_, ?_, ?_⟩
  · intro h
    simp [VersionedRevDependencies.add_rdep, lookupRdep_addRdepEntry, h]
  · simp [VersionedRevDependencies.add_rdep, addRdepEntry_comm]
  · simp [VersionedRevDependencies.add_rdep, addRdepEntry_idem]

theorem add_rdep_comm_idem_witness :
    lookupRdep (VersionedRevDependencies.add_rdep
      (VersionedRevDependencies.add_rdep ⟨[]⟩ ⟨⟨1⟩⟩ 4) ⟨⟨1⟩⟩ 2).rdeps ⟨⟨1⟩⟩ = some 4 :=
  (add_rdep_comm_idem ⟨[]⟩ ⟨⟨1⟩⟩ 4 2 0).1 rfl

/-- C6: equality of stored Dependency edges (and the hash feeding it) is
determined solely by the identity of the underlying target key: two edges are
equal iff they reference the same target key, independent of the recorded
version or any other edge content. -/
theorem dependency_eq_key_identity (a b : Dependency) :
    (dependencyEq a b = true ↔ a.key = b.key) ∧
    (∀ v1 v2 c1 c2, dependencyEq ⟨a.key, v1, c1⟩ ⟨a.key, v2, c2⟩ = true ∧
      dependencyHash ⟨a.key, v1, c1⟩ = dependencyHash ⟨a.key, v2, c2⟩) ∧
    (a.key = b.key → dependencyHash a = dependencyHash b) := by
  refine ⟨?_, ?_, ?_⟩
  · simp [dependencyEq, Dependency.getKeyEquality]
  · intro v1 v2 c1 c2
    exact ⟨by simp [dependencyEq, Dependency.getKeyEquality], rfl⟩
  · intro h
    simp [dependencyHash, h]

theorem dependency_eq_key_identity_witness :
    dependencyHash ⟨7, 1, 0⟩ = dependencyHash ⟨7, 2, 5⟩ :=
  (dependency_eq_key_identity ⟨7, 1, 0⟩ ⟨7, 2, 5⟩).2.2 rfl

/-- C7: Rdep equality is raw pointer equality of the weak reference (two
Rdeps are equal iff they point at the same node allocation, independent of
the node's content), the hash token depends only on the pointer and on
whether the allocation is still live (never on content), upgrading a dead
weak reference yields nothing, and a dead entry contributes no dependent to
the fan-out walk rather than faulting. -/
theorem rdep_eq_hash_pointer_identity (a b w : Rdep) (h h1 h2 : Heap) :
    (Rdep.ptrEq a b = true ↔ a.weak.ptr = b.weak.ptr) ∧
    (h w.weak.ptr = none → w.weak.upgrade h = none) ∧
    ((h1 w.weak.ptr).isSome = (h2 w.weak.ptr).isSome →
      Rdep.hashToken w h1 = Rdep.hashToken w h2) ∧
    (∀ v rest, w.weak.upgrade h = none →
      liveDependents h ⟨(w, v) :: rest⟩ = liveDependents h ⟨rest⟩) := by
  refine ⟨?_, ?_, ?_, ?_⟩
  · simp [Rdep.ptrEq]
  · intro hd
    simp [WeakRef.upgrade, hd]
  · intro hs
    unfold Rdep.hashToken WeakRef.upgrade
    cases hc1 : h1 w.weak.ptr with
    | none =>
      rw [hc1] at hs
      cases hc2 : h2 w.weak.ptr with
      | none => simp
      | some c2 => rw [hc2] at hs; simp at hs
    | some c1 =>
      rw [hc1] at hs
      cases hc2 : h2 w.weak.ptr with
      | none => rw [hc2] at hs; simp at hs
      | some c2 => simp
  · intro v rest hd
    simp [liveDependents, hd]

theorem rdep_eq_hash_pointer_identity_witness :
    WeakRef.upgrade ⟨5⟩ (fun _ => none) = none :=
  (rdep_eq_hash_pointer_identity ⟨⟨5⟩⟩ ⟨⟨5⟩⟩ ⟨⟨5⟩⟩ (fun _ => none)
    (fun _ => none) (fun _ => none)).2.1 rfl

/-- C10: two ComputedDependency values are equal iff both the underlying key
identities and the recorded VersionNumbers agree; the same key observed at
two different versions compares unequal, while the committed Dependency form
at those versions compares equal (version-sensitive before commit,
version-independent after). -/
theorem computed_dependency_eq_version_sensitive (a b : ComputedDependency) :
    (computedDependencyEq a b = true ↔ a.key = b.key ∧ a.version = b.version) ∧
    (∀ k v1 v2 c1 c2, v1 ≠ v2 →
      computedDependencyEq ⟨k, v1, c1⟩ ⟨k, v2, c2⟩ = false) ∧
    (∀ k v1 v2 c1 c2, dependencyEq ⟨k, v1, c1⟩ ⟨k, v2, c2⟩ = true) := by
  refine ⟨?_, ?_, ?_⟩
  · simp [computedDependencyEq, ComputedDependency.getKeyEquality, Prod.ext_iff]
  · intro k v1 v2 c1 c2 hv
    simp [computedDependencyEq, ComputedDependency.getKeyEquality, Prod.ext_iff, hv]
  · intro k v1 v2 c1 c2
    simp [dependencyEq, Dependency.getKeyEquality]

theorem computed_dependency_eq_version_sensitive_witness :
    computedDependencyEq ⟨3, 1, 0⟩ ⟨3, 2, 0⟩ = false :=
  (computed_dependency_eq_version_sensitive ⟨3, 1, 0⟩ ⟨3, 2, 0⟩).2.1 3 1 2 0 0
    (by decide)

/-- C8: the rdeps() read path never modifies the stored data: after any
number of reads every entry, dead weak references included, is still in the
map with its recorded version unchanged, and each read's view is the full
data. -/
theorem rdeps_read_preserves_state (s : VersionedRevDependenciesData)
    (n : Nat) (h : Heap) :
    readMany n s = s ∧
    (VersionedRevDependencies.rdepsRead s).1 = s ∧
    (∀ e, e ∈ s.rdeps → e.1.weak.upgrade h = none →
      e ∈ (readMany n s).rdeps ∧
      lookupRdep (readMany n s).rdeps e.1 = lookupRdep s.rdeps e.1) := by
  have hr : readMany n s = s := by
    induction n with
    | zero => rfl
    | succ m ih => exact ih
  refine ⟨hr, rfl, ?_⟩
  intro e he _
  rw [hr]
  exact ⟨he, rfl⟩

theorem rdeps_read_preserves_state_witness :
    readMany 3 ⟨[(⟨⟨0⟩⟩, 1)]⟩ = ⟨[(⟨⟨0⟩⟩, 1)]⟩ ∧
    (⟨⟨0⟩⟩, 1) ∈ (readMany 3 (⟨[(⟨⟨0⟩⟩, 1)]⟩ : VersionedRevDependenciesData)).rdeps := by
  refine ⟨(rdeps_read_preserves_state ⟨[(⟨⟨0⟩⟩, 1)]⟩ 3 (fun _ => none)).1, ?_⟩
  exact ((rdeps_read_preserves_state ⟨[(⟨⟨0⟩⟩, 1)]⟩ 3 (fun _ => none)).2.2
    (⟨⟨0⟩⟩, 1) (by simp) rfl).1

/-- add_deps applied in arrival order starting from an arbitrary state. -/
def writesFrom (s : VersionedDependencies)
    (ws : List (VersionNumber × DepsList)) : VersionedDependencies :=
  ws.foldl (fun s u => VersionedDependencies.add_deps s u.1 u.2) s

theorem writesFrom_cons (s : VersionedDependencies) (u : VersionNumber × DepsList)
    (rest : List (VersionNumber × DepsList)) :
    writesFrom s (u :: rest) =
      writesFrom (VersionedDependencies.add_deps s u.1 u.2) rest := rfl

theorem writesFrom_append (s : VersionedDependencies)
    (l1 l2 : List (VersionNumber × DepsList)) :
    writesFrom s (l1 ++ l2) = writesFrom (writesFrom s l1) l2 := by
  simp [writesFrom, List.foldl_append]

theorem runWrites_eq_writesFrom (ws : List (VersionNumber × DepsList)) :
    runWrites ws = writesFrom none ws := rfl

theorem writesFrom_some (ws : List (VersionNumber × DepsList))
    (p : VersionNumber × DepsList) :
    ∃ q, writesFrom (some p) ws = some q := by
  induction ws generalizing p with
  | nil => exact ⟨p, rfl⟩
  | cons u rest ih =>
    rw [writesFrom_cons]
    by_cases h : p.1 < u.1
    · rw [show VersionedDependencies.add_deps (some p) u.1 u.2 = some (u.1, u.2) by
        simp [VersionedDependencies.add_deps, h]]
      exact ih _
    · rw [show VersionedDependencies.add_deps (some p) u.1 u.2 = some p by
        simp [VersionedDependencies.add_deps, h]]
      exact ih p

theorem writesFrom_below (w : VersionNumber × DepsList)
    (ws : List (VersionNumber × DepsList)) (s : VersionedDependencies)
    (hws : ∀ u ∈ ws, u = w ∨ u.1 < w.1)
    (hs : s = none ∨ s = some w ∨ ∃ p, s = some p ∧ p.1 < w.1) :
    writesFrom s ws = none ∨ writesFrom s ws = some w ∨
      ∃ p, writesFrom s ws = some p ∧ p.1 < w.1 := by
  induction ws generalizing s with
  | nil => exact hs
  | cons u rest ih =>
    rw [writesFrom_cons]
    refine ih _ (fun x hx => hws x (List.mem_cons_of_mem _ hx)) ?_
    have hu := hws u (List.mem_cons_self _ _)
    rcases hs with rfl | rfl | ⟨p, rfl, hp⟩
    · rcases hu with rfl | hu
      · right; left; rfl
      · right; right; exact ⟨(u.1, u.2), rfl, hu⟩
    · rcases hu with rfl | hu
      · right; left; simp [VersionedDependencies.add_deps]
      · right; left
        simp [VersionedDependencies.add_deps, Nat.not_lt.mpr (Nat.le_of_lt hu)]
    · rcases hu with rfl | hu
      · right; left; simp [VersionedDependencies.add_deps, hp]
      · by_cases hc : p.1 < u.1
        · right; right
          exact ⟨(u.1, u.2), by simp [VersionedDependencies.add_deps, hc], hu⟩
        · right; right
          exact ⟨p, by simp [VersionedDependencies.add_deps, hc], hp⟩

theorem add_deps_at_max (w : VersionNumber × DepsList) (s : VersionedDependencies)
    (hs : s = none ∨ s = some w ∨ ∃ p, s = some p ∧ p.1 < w.1) :
    VersionedDependencies.add_deps s w.1 w.2 = some w := by
  rcases hs with rfl | rfl | ⟨p, rfl, hp⟩
  · rfl
  · simp [VersionedDependencies.add_deps]
  · simp [VersionedDependencies.add_deps, hp]

theorem writesFrom_stable (w : VersionNumber × DepsList)
    (ws : List (VersionNumber × DepsList))
    (hws : ∀ u ∈ ws, u = w ∨ u.1 < w.1) :
    writesFrom (some w) ws = some w := by
  induction ws with
  | nil => rfl
  | cons u rest ih =>
    rw [writesFrom_cons]
    have hu := hws u (List.mem_cons_self _ _)
    have hstep : VersionedDependencies.add_deps (some w) u.1 u.2 = some w := by
      rcases hu with rfl | hu
      · simp [VersionedDependencies.add_deps]
      · simp [VersionedDependencies.add_deps, Nat.not_lt.mpr (Nat.le_of_lt hu)]
    rw [hstep]
    exact ih (fun x hx => hws x (List.mem_cons_of_mem _ hx))

/-- C9: deps() returns none exactly when no add_deps call has ever run on the
fresh store, and otherwise returns the dependency list of the
highest-version write performed so far. -/
theorem deps_none_iff_highest (ws : List (VersionNumber × DepsList))
    (w : VersionNumber × DepsList) :
    (VersionedDependencies.deps (runWrites ws) = none ↔ ws = []) ∧
    (w ∈ ws → (∀ u ∈ ws, u = w ∨ u.1 < w.1) →
      VersionedDependencies.deps (runWrites ws) = some w.2) := by
  constructor
  · constructor
    · intro h
      cases ws with
      | nil => rfl
      | cons u rest =>
        exfalso
        obtain ⟨q, hq⟩ := writesFrom_some rest (u.1, u.2)
        rw [runWrites_eq_writesFrom, writesFrom_cons] at h
        rw [show VersionedDependencies.add_deps none u.1 u.2 = some (u.1, u.2) from rfl,
          hq] at h
        simp [VersionedDependencies.deps] at h
    · rintro rfl; rfl
  · intro hw hmax
    obtain ⟨pre, post, rfl⟩ := List.append_of_mem hw
    have hpre : ∀ u ∈ pre, u = w ∨ u.1 < w.1 :=
      fun u hu => hmax u (List.mem_append_left _ hu)
    have hpost : ∀ u ∈ post, u = w ∨ u.1 < w.1 :=
      fun u hu => hmax u (List.mem_append_right _ (List.mem_cons_of_mem _ hu))
    rw [runWrites_eq_writesFrom, writesFrom_append, writesFrom_cons]
    rw [add_deps_at_max w _ (writesFrom_below w pre none hpre (Or.inl rfl))]
    rw [writesFrom_stable w post hpost]
    rfl

theorem deps_none_iff_highest_witness :
    VersionedDependencies.deps (runWrites [(1, []), (2, [⟨0, 0, 0⟩])]) =
      some [⟨0, 0, 0⟩] :=
  (deps_none_iff_highest [(1, []), (2, [⟨0, 0, 0⟩])] (2, [⟨0, 0, 0⟩])).2
    (by decide) (by decide)

/-- C4 counterexample: the claim quantifies over every VersionedDependencies
store, but on a store already holding a snapshot at version 3, write at
version 1 then at version 2 are both discarded, so deps() is the version-3
list, not d2. -/
theorem add_deps_any_store_counterexample :
    ¬ (VersionedDependencies.deps
        (VersionedDependencies.add_deps
          (VersionedDependencies.add_deps (some (3, [⟨0, 0, 0⟩])) 1 [⟨1, 0, 0⟩])
          2 [⟨2, 0, 0⟩]) = some [⟨2, 0, 0⟩]) := by decide

/-- C4 (amended): for versions v1 < v2, the final store after add_deps(v1, d1)
and add_deps(v2, d2) is the same in either arrival order (determined by
version comparison, not order); and provided the pre-existing snapshot, if
any, has version strictly below v2 (e.g. a fresh store), deps() returns d2
after both writes in either order. -/
theorem add_deps_version_ordered (s : VersionedDependencies)
    (v1 v2 : VersionNumber) (d1 d2 : DepsList) (hv : v1 < v2) :
    (VersionedDependencies.add_deps (VersionedDependencies.add_deps s v1 d1) v2 d2 =
      VersionedDependencies.add_deps (VersionedDependencies.add_deps s v2 d2) v1 d1) ∧
    ((∀ p, s = some p → p.1 < v2) →
      VersionedDependencies.deps
        (VersionedDependencies.add_deps
          (VersionedDependencies.add_deps s v1 d1) v2 d2) = some d2 ∧
      VersionedDependencies.deps
        (VersionedDependencies.add_deps
          (VersionedDependencies.add_deps s v2 d2) v1 d1) = some d2) := by
  have hv21 : ¬ v2 < v1 := Nat.not_lt.mpr (Nat.le_of_lt hv)
  cases s with
  | none =>
    refine ⟨?_, fun _ => ⟨?_, ?_⟩⟩
    all_goals
      simp [VersionedDependencies.add_deps, VersionedDependencies.deps, hv, hv21]
  | some p =>
    by_cases h1 : p.1 < v1
    · have h2 : p.1 < v2 := Nat.lt_trans h1 hv
      refine ⟨?_, fun _ => ⟨?_, ?_⟩⟩
      all_goals
        simp [VersionedDependencies.add_deps, VersionedDependencies.deps,
          h1, h2, hv, hv21]
    · by_cases h2 : p.1 < v2
      · refine ⟨?_, fun _ => ⟨?_, ?_⟩⟩
        all_goals
          simp [VersionedDependencies.add_deps, VersionedDependencies.deps,
            h1, h2, hv, hv21]
      · refine ⟨?_, fun hp => absurd (hp p rfl) h2⟩
        simp [VersionedDependencies.add_deps, h1, h2]

theorem add_deps_version_ordered_witness :
    VersionedDependencies.deps
      (VersionedDependencies.add_deps
        (VersionedDependencies.add_deps none 1 []) 2 [⟨0, 0, 0⟩]) =
      some [⟨0, 0, 0⟩] :=
  ((add_deps_version_ordered none 1 2 [] [⟨0, 0, 0⟩] (by decide)).2
    (fun _ hp => nomatch hp)).1

theorem runRequesters_joined (l : List DiceTask) (s : TaskCacheState)
    (t : DiceTask) (h : s.slot = some t) :
    runRequesters l s = (s, l.map (fun _ => t)) := by
  induction l with
  | nil => rfl
  | cons x rest ih =>
    have hp : requesterStep x s = (s, t) := by
      unfold requesterStep
      rw [h]
    calc runRequesters (x :: rest) s
        = ((runRequesters rest (requesterStep x s).1).1,
           (requesterStep x s).2 :: (runRequesters rest (requesterStep x s).1).2) := rfl
      _ = ((runRequesters rest s).1, t :: (runRequesters rest s).2) := by rw [hp]
      _ = (s, (x :: rest).map (fun _ => t)) := by rw [ih]; rfl

/-- C1: for N concurrent evaluate calls on the same key at the same version
with no intervening write, modelled as the N requesters' atomic slot
acquisitions in an arbitrary arrival order from an empty slot, the recompute
function is started exactly once: the first requester populates the vacant
slot, every later requester finds it occupied and joins, each of the N calls
gets a result, and all observe the same task's result. -/
theorem shared_cache_single_start (ts : List DiceTask) (h : ts ≠ []) :
    (runRequesters ts ⟨none, 0⟩).1.started = 1 ∧
    (runRequesters ts ⟨none, 0⟩).2.length = ts.length ∧
    ∃ t, ∀ r ∈ (runRequesters ts ⟨none, 0⟩).2, r = t := by
  cases ts with
  | nil => exact absurd rfl h
  | cons t rest =>
    have hrun : runRequesters (t :: rest) ⟨none, 0⟩ =
        ((⟨some t, 1⟩ : TaskCacheState), t :: rest.map (fun _ => t)) := by
      calc runRequesters (t :: rest) ⟨none, 0⟩
          = ((runRequesters rest (⟨some t, 1⟩ : TaskCacheState)).1,
             t :: (runRequesters rest (⟨some t, 1⟩ : TaskCacheState)).2) := rfl
        _ = ((⟨some t, 1⟩ : TaskCacheState), t :: rest.map (fun _ => t)) := by
            rw [runRequesters_joined rest ⟨some t, 1⟩ t rfl]
    rw [hrun]
    refine ⟨rfl, by simp, t, ?_⟩
    intro r hr
    rcases List.mem_cons.mp hr with rfl | hr
    · rfl
    · obtain ⟨a, _, hb⟩ := List.mem_map.mp hr
      exact hb.symm

theorem shared_cache_single_start_witness :
    (runRequesters [5, 6, 7] ⟨none, 0⟩).1.started = 1 :=
  (shared_cache_single_start [5, 6, 7] (by decide)).1

end Buck2
